import Mathlib

/-!
Verification of the vanilla federated-learning core
(`src/python/vanilla-fl/src`): the parameter vectorization codec
(`models.py`: `CNNMnist.weights_to_vector` / `CNNMnist.vector_to_weights`),
the federated-averaging aggregator (`utils.py`: `aggregate_weights`), the
non-IID partitioner (`utils.py`: `sample_noniid`) and the round
orchestrator's client sampling (`federated.py`: `main`).

A tensor parameter is modelled by its flattened list of values (its shape
only matters through its element count, so a parameter of shape `(a, b)`
with `a * b = n` appears as the length-`n` list of its entries in row-major
order), and a parameter collection (`self.parameters()` / a `state_dict`)
by the ordered list of its parameters.  Floating point values are modelled
by rationals; random draws (numpy / `random`) are modelled relationally by
quantifying over every outcome the generator can produce.
-/

namespace FL

/-- Model of `CNNMnist.weights_to_vector` (models.py): `torch.cat` of every
parameter flattened, in declaration order. -/
def weights_to_vector {α : Type} (params : List (List α)) : List α :=
  params.flatten

/-- The loop of `CNNMnist.vector_to_weights` (models.py): starting from
`pointer`, each parameter in turn is replaced by
`vector[pointer : pointer + numel].view(param_shape)`.  A torch slice
`vector[pointer : pointer + numel]` keeps only the elements that exist, and
`view` raises a `RuntimeError` when the slice holds fewer than `numel`
elements.  The result is the final data of the parameters (new values
where the loop got far enough, the old data elsewhere, matching the
in-place mutation) together with a flag recording whether the loop
finished without raising. -/
def v2wGo {α : Type} (v : List α) : List (List α) → ℕ → List (List α) × Bool
  | [], _ => ([], true)
  | p :: ps, ptr =>
    let slice := (v.drop ptr).take p.length
    if slice.length = p.length then
      let r := v2wGo v ps (ptr + p.length)
      (slice :: r.1, r.2)
    else (p :: ps, false)

/-- Model of `CNNMnist.vector_to_weights` (models.py): run the pointer loop over the
model's parameters starting at pointer `0`. -/
def vector_to_weights {α : Type} (params : List (List α)) (v : List α) :
    List (List α) × Bool :=
  v2wGo v params 0

theorem v2wGo_of_drop_eq {α : Type} (v : List α) :
    ∀ (ps : List (List α)) (ptr : ℕ) (t : List α),
      v.drop ptr = ps.flatten ++ t → v2wGo v ps ptr = (ps, true) := by
  intro ps
  induction ps with
  | nil => intro ptr t _; rfl
  | cons p ps ih =>
    intro ptr t h
    have hdrop : v.drop ptr = p ++ (ps.flatten ++ t) := by
      simpa [List.append_assoc] using h
    have hslice : (v.drop ptr).take p.length = p := by
      rw [hdrop]; exact List.take_left p (ps.flatten ++ t)
    have hnext : v.drop (ptr + p.length) = ps.flatten ++ t := by
      rw [← List.drop_drop, hdrop]
      exact List.drop_left p (ps.flatten ++ t)
    simp [v2wGo, hslice, ih (ptr + p.length) t hnext]

theorem v2wGo_snd_iff {α : Type} (v : List α) :
    ∀ (ps : List (List α)) (ptr : ℕ),
      (v2wGo v ps ptr).2 = true ↔ (ps.map List.length).sum ≤ v.length - ptr := by
  intro ps
  induction ps with
  | nil => intro ptr; simp [v2wGo]
  | cons p ps ih =>
    intro ptr
    have hlen : ((v.drop ptr).take p.length).length = min p.length (v.length - ptr) := by
      simp
    by_cases hc : ((v.drop ptr).take p.length).length = p.length
    · have hple : p.length ≤ v.length - ptr := by
        rw [hlen] at hc; omega
      simp only [v2wGo, if_pos hc, List.map_cons, List.sum_cons]
      rw [ih (ptr + p.length)]
      omega
    · have hgt : v.length - ptr < p.length := by
        rw [hlen] at hc; omega
      simp only [v2wGo, if_neg hc, List.map_cons, List.sum_cons]
      constructor
      · intro hfalse; exact absurd hfalse (by simp)
      · intro hle; omega

/-- Claim C1: for every parameter collection `C`,
`devectorize(C, vectorize(C))` reproduces the values of `C` exactly (the
loop only slices, no arithmetic is performed, which the arbitrary value
type `α` makes explicit), and the length of `vectorize(C)` is the sum of
the element counts of the parameters of `C` in declaration order. -/
theorem C1_vector_round_trip {α : Type} (C : List (List α)) :
    vector_to_weights C (weights_to_vector C) = (C, true) ∧
      (weights_to_vector C).length = (C.map List.length).sum := by
  constructor
  · exact v2wGo_of_drop_eq (weights_to_vector C) C 0 []
      (by simp [weights_to_vector])
  · simp [weights_to_vector]

/-- Claim C7, counterexample: devectorizing the length-2 vector `[1, 2]`
against a template with a single 1-element parameter silently succeeds
(the extra element is ignored), although the lengths differ; and
devectorizing the length-1 vector `[5]` against a template with two
1-element parameters fails only after its first parameter has already been
overwritten with `5` — a partial write. -/
theorem C7_counterexample :
    (vector_to_weights [[(0 : ℚ)]] [1, 2] = ([[1]], true) ∧
        ([1, 2] : List ℚ).length ≠ (([[(0 : ℚ)]] : List (List ℚ)).map List.length).sum) ∧
      vector_to_weights [[(0 : ℚ)], [0]] [5] = ([[5], [0]], false) := by
  refine ⟨⟨rfl, by decide⟩, rfl⟩

/-- Claim C7, amended: `devectorize(C, v)` fails with the shape-mismatch
(`view`) error if and only if `len(v)` is strictly smaller than the sum of
the template's parameter element counts; a longer vector is silently
truncated, and on failure the parameters preceding the first parameter
whose slice comes up short have already been overwritten. -/
theorem C7_amended {α : Type} (params : List (List α)) (v : List α) :
    (vector_to_weights params v).2 = true ↔
      (params.map List.length).sum ≤ v.length := by
  simpa [vector_to_weights] using v2wGo_snd_iff v params 0

/-- The in-place `updated_global_vector += local_vector` of
`aggregate_weights` (utils.py) on 1-D torch tensors: it succeeds
element-wise when the lengths agree; a single-element right-hand side is
broadcast over the accumulator; any other length mismatch raises a
`RuntimeError` (the shapes are not broadcastable in place). -/
def addInPlace (a b : List ℚ) : Option (List ℚ) :=
  if b.length = a.length then some (List.zipWith (fun x y => x + y) a b)
  else
    match b with
    | [q] => some (a.map (fun x => x + q))
    | _ => none

/-- The vector core of `aggregate_weights` (utils.py): clone the global
vector, add every local vector in place, then divide by
`len(local_weights) + 1`. -/
def aggregateVector (g : List ℚ) (locals : List (List ℚ)) : Option (List ℚ) := do
  let summed ← List.foldlM addInPlace g locals
  pure (summed.map (fun x => x / (locals.length + 1)))

/-- Model of `aggregate_weights` (utils.py): flatten and concatenate the global
weights (`torch.cat` over the values of the state dict), run the vector
aggregation, then slice the averaged vector back into the parameter shapes
with the same pointer walk as `vector_to_weights` (the dict is rebuilt
fresh, so a raised slicing error yields no result). -/
def aggregate_weights (G : List (List ℚ)) (locals : List (List ℚ)) :
    Option (List (List ℚ)) := do
  let avg ← aggregateVector (weights_to_vector G) locals
  let r := v2wGo avg G 0
  if r.2 then some r.1 else none

/-- Modelled from the spec words for the aggregation contract: the
element-wise sum of the global vector and every local vector, divided by
`len(local_vectors) + 1`. -/
def specAggregate (g : List ℚ) (locals : List (List ℚ)) : List ℚ :=
  (List.range g.length).map (fun i =>
    (g.getD i 0 + (locals.map (fun l => l.getD i 0)).sum) / (locals.length + 1))

theorem getD_zipWith_add :
    ∀ (a b : List ℚ), a.length = b.length → ∀ (i : ℕ),
      (List.zipWith (fun x y => x + y) a b).getD i 0 = a.getD i 0 + b.getD i 0 := by
  intro a
  induction a with
  | nil =>
    intro b hb i
    have : b = [] := by
      cases b with
      | nil => rfl
      | cons y ys => simp at hb
    subst this; simp
  | cons x xs ih =>
    intro b hb i
    cases b with
    | nil => simp at hb
    | cons y ys =>
      cases i with
      | zero => simp
      | succ n =>
        have hlen : xs.length = ys.length := by simpa using hb
        simpa using ih ys hlen n

theorem addInPlace_length {a b c : List ℚ} (h : addInPlace a b = some c) :
    c.length = a.length := by
  unfold addInPlace at h
  by_cases hb : b.length = a.length
  · rw [if_pos hb] at h
    have : c = List.zipWith (fun x y => x + y) a b := by
      exact (Option.some_inj.mp h).symm
    rw [this, List.length_zipWith, hb]
    exact min_self a.length
  · rw [if_neg hb] at h
    cases b with
    | nil => exact absurd h (by simp)
    | cons q bs =>
      cases bs with
      | nil =>
        have : c = a.map (fun x => x + q) := (Option.some_inj.mp h).symm
        rw [this, List.length_map]
      | cons r bs => exact absurd h (by simp)

theorem foldlM_addInPlace_eq (locals : List (List ℚ)) :
    ∀ acc : List ℚ, (∀ l ∈ locals, l.length = acc.length) →
      ∃ r, List.foldlM addInPlace acc locals = some r ∧ r.length = acc.length ∧
        ∀ i, r.getD i 0 = acc.getD i 0 + (locals.map (fun l => l.getD i 0)).sum := by
  induction locals with
  | nil =>
    intro acc _
    exact ⟨acc, rfl, rfl, by simp⟩
  | cons l ls ih =>
    intro acc hlen
    have hl : l.length = acc.length := hlen l (List.mem_cons_self l ls)
    have hstep : addInPlace acc l = some (List.zipWith (fun x y => x + y) acc l) := by
      unfold addInPlace
      rw [if_pos hl]
    have hzlen : (List.zipWith (fun x y => x + y) acc l).length = acc.length := by
      rw [List.length_zipWith, hl]
      exact min_self acc.length
    have hls : ∀ m ∈ ls, m.length = (List.zipWith (fun x y => x + y) acc l).length := by
      intro m hm
      rw [hzlen]
      exact hlen m (List.mem_cons_of_mem l hm)
    obtain ⟨r, hr, hrlen, hget⟩ := ih (List.zipWith (fun x y => x + y) acc l) hls
    refine ⟨r, ?_, by rw [hrlen, hzlen], ?_⟩
    · rw [List.foldlM_cons, hstep]
      simpa using hr
    · intro i
      rw [hget i, getD_zipWith_add acc l hl.symm i]
      simp [add_assoc]

/-- Claim C2: for every global vector `G` and non-empty family of local
vectors all of the same length as `G`, the aggregator succeeds and
returns the element-wise value `(G + L_1 + ... + L_n) / (n + 1)` (the
formula `specAggregate` written from the spec words). -/
theorem C2_aggregate_arithmetic (g : List ℚ) (locals : List (List ℚ))
    (hlocals : locals ≠ []) (hlen : ∀ l ∈ locals, l.length = g.length) :
    aggregateVector g locals = some (specAggregate g locals) := by
  obtain ⟨r, hr, hrlen, hget⟩ := foldlM_addInPlace_eq locals g hlen
  have hagg : aggregateVector g locals =
      some (r.map (fun x : ℚ => x / ((locals.length : ℚ) + 1))) := by
    simp [aggregateVector, hr]
  rw [hagg]
  congr 1
  apply List.ext_get
  · simp [specAggregate, hrlen]
  · intro n h1 h2
    have hn : n < r.length := by simpa using h1
    have hng : n < g.length := by rw [← hrlen]; exact hn
    have hrd : r.getD n 0 = r.get ⟨n, hn⟩ := by
      rw [List.getD_eq_getElem?_getD]
      simp [List.getElem?_eq_getElem hn]
    simp only [specAggregate, List.get_eq_getElem, List.getElem_map, List.getElem_range]
    rw [show r[n] = r.get ⟨n, hn⟩ from rfl, ← hrd, hget n]

/-- Claim C2, witness: with global vector `[1, 1]` and local vectors
`[3, 3]` and `[5, 5]`, the hypotheses hold and the aggregator returns
`[(1 + 3 + 5) / 3, (1 + 3 + 5) / 3] = [3, 3]`. -/
theorem C2_aggregate_arithmetic_witness :
    ((([[3, 3], [5, 5]] : List (List ℚ)) ≠ []) ∧
        (∀ l ∈ ([[3, 3], [5, 5]] : List (List ℚ)), l.length = ([1, 1] : List ℚ).length)) ∧
      aggregateVector [1, 1] [[3, 3], [5, 5]] = some (specAggregate [1, 1] [[3, 3], [5, 5]]) ∧
      specAggregate [1, 1] [[3, 3], [5, 5]] = [3, 3] :=
  ⟨⟨by decide, by decide⟩,
    C2_aggregate_arithmetic [1, 1] [[3, 3], [5, 5]] (by decide) (by decide),
    by norm_num [specAggregate, List.range_succ]⟩

theorem addInPlace_eq_none_iff (a b : List ℚ) :
    addInPlace a b = none ↔ b.length ≠ a.length ∧ b.length ≠ 1 := by
  unfold addInPlace
  by_cases hb : b.length = a.length
  · simp [hb]
  · rw [if_neg hb]
    cases b with
    | nil => simpa using hb
    | cons q bs =>
      cases bs with
      | nil => simp
      | cons r bs => simpa using hb

theorem foldlM_addInPlace_eq_none_iff (locals : List (List ℚ)) :
    ∀ acc : List ℚ, List.foldlM addInPlace acc locals = none ↔
      ∃ l ∈ locals, l.length ≠ acc.length ∧ l.length ≠ 1 := by
  induction locals with
  | nil => intro acc; simp
  | cons l ls ih =>
    intro acc
    rw [List.foldlM_cons]
    cases hstep : addInPlace acc l with
    | none =>
      constructor
      · intro _
        exact ⟨l, List.mem_cons_self l ls, (addInPlace_eq_none_iff acc l).mp hstep⟩
      · intro _; simp
    | some acc2 =>
      have hlen2 : acc2.length = acc.length := addInPlace_length hstep
      have hgood : ¬(l.length ≠ acc.length ∧ l.length ≠ 1) := by
        intro hbad
        rw [(addInPlace_eq_none_iff acc l).mpr hbad] at hstep
        exact Option.noConfusion hstep
      have hbind : (some acc2 >>= fun init => List.foldlM addInPlace init ls) =
          List.foldlM addInPlace acc2 ls := by simp
      rw [hbind, ih acc2]
      constructor
      · intro ⟨m, hm, hmlen⟩
        exact ⟨m, List.mem_cons_of_mem l hm, by rw [← hlen2]; exact hmlen⟩
      · intro ⟨m, hm, hmlen⟩
        rcases List.mem_cons.mp hm with hml | hmls
        · subst hml; exact absurd hmlen hgood
        · exact ⟨m, hmls, by rw [hlen2]; exact hmlen⟩

/-- Claim C8, counterexample: the local vector `[5]` has length 1 while the
global vector `[1, 1]` has length 2, yet the aggregator does not fail: the
in-place addition broadcasts the single element over the global vector and
returns `[(1 + 5) / 2, (1 + 5) / 2] = [3, 3]`. -/
theorem C8_counterexample :
    (([5] : List ℚ).length ≠ ([1, 1] : List ℚ).length) ∧
      aggregateVector [1, 1] [[5]] = some [3, 3] := by
  constructor
  · decide
  · show (do
      let summed ← List.foldlM addInPlace [1, 1] [[5]]
      pure (summed.map (fun x => x / (([[5]] : List (List ℚ)).length + 1)))) =
        some [(3 : ℚ), 3]
    norm_num [List.foldlM_cons, addInPlace]

/-- Claim C8, amended: the aggregator fails if and only if some local
vector has a length that differs from the global vector's length *and* is
not 1 — a single-element local vector is broadcast by the in-place torch
addition instead of raising, so only non-broadcastable mismatches fail. -/
theorem C8_amended (g : List ℚ) (locals : List (List ℚ)) :
    aggregateVector g locals = none ↔
      ∃ l ∈ locals, l.length ≠ g.length ∧ l.length ≠ 1 := by
  rw [← foldlM_addInPlace_eq_none_iff locals g]
  unfold aggregateVector
  cases h : List.foldlM addInPlace g locals <;> simp [h]

/-- Claim C10: aggregating with an empty list of local vectors succeeds
and returns the global weights unchanged: the sum over no local vectors
leaves the global vector as is, the division is by `0 + 1 = 1`, and the
pointer walk re-slices the vector into exactly the original parameters. -/
theorem C10_empty_aggregate (G : List (List ℚ)) :
    aggregate_weights G [] = some G := by
  have hagg : aggregateVector (weights_to_vector G) [] =
      some (weights_to_vector G) := by
    simp [aggregateVector]
  have hsplit : v2wGo (weights_to_vector G) G 0 = (G, true) :=
    v2wGo_of_drop_eq (weights_to_vector G) G 0 [] (by simp [weights_to_vector])
  simp [aggregate_weights, hagg, hsplit]

/-- One shard's block of the index array in `sample_noniid` (utils.py):
`idxs[rand * num_imgs : (rand + 1) * num_imgs]`. -/
def shardSlice (idxs : List ℕ) (num_imgs s : ℕ) : List ℕ :=
  (idxs.drop (s * num_imgs)).take num_imgs

/-- The indices accumulated for one client in `sample_noniid` (utils.py):
the concatenation of the blocks of the shards in its drawn set (the
iteration order over the Python set is immaterial for the set-level and
size claims). -/
def clientIndices (idxs : List ℕ) (num_imgs : ℕ) (draw : List ℕ) : List ℕ :=
  (draw.map (fun s => shardSlice idxs num_imgs s)).flatten

/-- The shard-drawing loop of `sample_noniid` (utils.py), relationally:
`draws` lists, client by client, the set drawn by
`rng.choice(idx_shard, shards_per_client, replace=False)`; a possible
outcome is any duplicate-free list of `shards_per_client` shard ids taken
from the current pool, after which the drawn ids are removed from the pool
(`idx_shard = list(set(idx_shard) - rand_set)`). -/
def validDraws (spc : ℕ) : List (List ℕ) → List ℕ → Bool
  | [], _ => true
  | d :: ds, pool =>
      decide d.Nodup && decide (d.length = spc) && decide (∀ s ∈ d, s ∈ pool) &&
        validDraws spc ds (pool.filter (fun s => decide (s ∉ d)))

theorem validDraws_facts (spc : ℕ) :
    ∀ (ds : List (List ℕ)) (pool : List ℕ), validDraws spc ds pool = true →
      ∀ d ∈ ds, d.Nodup ∧ d.length = spc ∧ ∀ s ∈ d, s ∈ pool := by
  intro ds
  induction ds with
  | nil => intro pool _ d hd; exact absurd hd (List.not_mem_nil d)
  | cons e ds ih =>
    intro pool hv d hd
    simp only [validDraws, Bool.and_eq_true, decide_eq_true_eq] at hv
    obtain ⟨⟨⟨hnd, hlen⟩, hsub⟩, hrest⟩ := hv
    rcases List.mem_cons.mp hd with hde | hdd
    · subst hde; exact ⟨hnd, hlen, hsub⟩
    · obtain ⟨h1, h2, h3⟩ := ih _ hrest d hdd
      refine ⟨h1, h2, fun s hs => ?_⟩
      have hmem := h3 s hs
      rw [List.mem_filter] at hmem
      exact hmem.1

theorem validDraws_pairwise (spc : ℕ) :
    ∀ (ds : List (List ℕ)) (pool : List ℕ), validDraws spc ds pool = true →
      ds.Pairwise List.Disjoint := by
  intro ds
  induction ds with
  | nil => intro pool _; exact List.Pairwise.nil
  | cons e ds ih =>
    intro pool hv
    simp only [validDraws, Bool.and_eq_true, decide_eq_true_eq] at hv
    obtain ⟨⟨⟨hnd, hlen⟩, hsub⟩, hrest⟩ := hv
    refine List.Pairwise.cons ?_ (ih _ hrest)
    intro d hd a ha had
    have hmem := (validDraws_facts spc ds _ hrest d hd).2.2 a had
    rw [List.mem_filter, decide_eq_true_eq] at hmem
    exact hmem.2 ha

theorem shardSlice_disjoint {idxs : List ℕ} (hnd : idxs.Nodup) (m : ℕ) {s t : ℕ}
    (hst : s ≠ t) : ∀ x ∈ shardSlice idxs m s, x ∉ shardSlice idxs m t := by
  suffices h : ∀ u v : ℕ, u < v → ∀ x ∈ shardSlice idxs m u, x ∉ shardSlice idxs m v by
    rcases Nat.lt_or_ge s t with hlt | hge
    · exact h s t hlt
    · have hlt : t < s := Nat.lt_of_le_of_ne hge (Ne.symm hst)
      intro x hx hxt
      exact h t s hlt x hxt hx
  intro u v huv x hxu hxv
  have hd : (idxs.drop (u * m)).Nodup :=
    List.Nodup.sublist (List.drop_sublist _ _) hnd
  have hsplit : idxs.drop (u * m) =
      shardSlice idxs m u ++ idxs.drop (u * m + m) := by
    rw [shardSlice, ← List.drop_drop]
    exact (List.take_append_drop m (idxs.drop (u * m))).symm
  have hdisj := (List.nodup_append.mp (hsplit ▸ hd)).2.2
  have hvsub : shardSlice idxs m v ⊆ idxs.drop (u * m + m) := by
    intro y hy
    have h1 : y ∈ idxs.drop (v * m) := List.take_subset _ _ hy
    have h2 : idxs.drop (v * m) = (idxs.drop (u * m + m)).drop (v * m - (u * m + m)) := by
      rw [List.drop_drop]
      congr 1
      have hle : u * m + m ≤ v * m := by
        have h3 : (u + 1) * m ≤ v * m :=
          Nat.mul_le_mul_right m (Nat.succ_le_of_lt huv)
        calc u * m + m = (u + 1) * m := by ring
        _ ≤ v * m := h3
      omega
    rw [h2] at h1
    exact List.drop_subset _ _ h1
  exact hdisj hxu (hvsub hxv)

/-- Claim C3: for every outcome of a successful partition — any
post-shuffle index array that is a permutation of the first
`num_shards * num_imgs` dataset positions, and any sequence of shard draws
the seeded generator can produce from the shrinking pool — the index sets
assigned to two distinct clients share no dataset sample index. -/
theorem C3_partition_disjoint (num_shards num_imgs spc : ℕ)
    (idxs : List ℕ) (draws : List (List ℕ))
    (hperm : idxs.Perm (List.range (num_shards * num_imgs)))
    (hvalid : validDraws spc draws (List.range num_shards) = true)
    (i j : ℕ) (hi : i < draws.length) (hj : j < draws.length) (hij : i ≠ j) :
    ∀ x ∈ clientIndices idxs num_imgs (draws.get ⟨i, hi⟩),
      x ∉ clientIndices idxs num_imgs (draws.get ⟨j, hj⟩) := by
  have hnd : idxs.Nodup := hperm.nodup_iff.mpr (List.nodup_range _)
  have hpw : draws.Pairwise List.Disjoint := validDraws_pairwise spc draws _ hvalid
  have hdisj : List.Disjoint (draws.get ⟨i, hi⟩) (draws.get ⟨j, hj⟩) ∨
      List.Disjoint (draws.get ⟨j, hj⟩) (draws.get ⟨i, hi⟩) := by
    rcases Nat.lt_or_ge i j with hlt | hge
    · exact Or.inl (List.pairwise_iff_get.mp hpw ⟨i, hi⟩ ⟨j, hj⟩ hlt)
    · exact Or.inr (List.pairwise_iff_get.mp hpw ⟨j, hj⟩ ⟨i, hi⟩
        (Nat.lt_of_le_of_ne hge (Ne.symm hij)))
  intro x hx hxj
  rw [clientIndices, List.mem_flatten] at hx hxj
  obtain ⟨li, hli, hxli⟩ := hx
  obtain ⟨lj, hlj, hxlj⟩ := hxj
  obtain ⟨s, hs, rfl⟩ := List.mem_map.mp hli
  obtain ⟨t, ht, rfl⟩ := List.mem_map.mp hlj
  have hst : s ≠ t := by
    intro he; subst he
    rcases hdisj with h | h
    · exact h hs ht
    · exact h ht hs
  exact shardSlice_disjoint hnd num_imgs hst x hxli hxlj

/-- Claim C3, witness: two shards of one image each, post-shuffle index
array `[0, 1]`, client 0 draws shard 0 and client 1 draws shard 1; the two
assigned index sets are disjoint. -/
theorem C3_partition_disjoint_witness :
    (([0, 1] : List ℕ).Perm (List.range (2 * 1)) ∧
        validDraws 1 [[0], [1]] (List.range 2) = true ∧ (0 : ℕ) ≠ 1) ∧
      ∀ x ∈ clientIndices [0, 1] 1 [0], x ∉ clientIndices [0, 1] 1 [1] :=
  ⟨⟨by decide, by decide, by decide⟩,
    C3_partition_disjoint 2 1 1 [0, 1] [[0], [1]] (by decide) (by decide)
      0 1 (by decide) (by decide) (by decide)⟩

/-- Claim C4: for every outcome of a successful partition, each client's
assigned index set has exactly `shards_per_client * num_imgs` elements:
every drawn shard id is below `num_shards`, so each block is a full
`num_imgs` slice, and all blocks of one client are mutually disjoint. -/
theorem C4_partition_size (num_shards num_imgs spc : ℕ)
    (idxs : List ℕ) (draws : List (List ℕ))
    (hperm : idxs.Perm (List.range (num_shards * num_imgs)))
    (hvalid : validDraws spc draws (List.range num_shards) = true)
    (d : List ℕ) (hd : d ∈ draws) :
    (clientIndices idxs num_imgs d).toFinset.card = spc * num_imgs := by
  have hnd : idxs.Nodup := hperm.nodup_iff.mpr (List.nodup_range _)
  have hlen : idxs.length = num_shards * num_imgs := by
    rw [hperm.length_eq, List.length_range]
  obtain ⟨hdnd, hdlen, hdsub⟩ := validDraws_facts spc draws _ hvalid d hd
  have hslice_len : ∀ s ∈ d, (shardSlice idxs num_imgs s).length = num_imgs := by
    intro s hs
    have hsn : s < num_shards := by
      have hmem := hdsub s hs; rwa [List.mem_range] at hmem
    have hbound : s * num_imgs + num_imgs ≤ idxs.length := by
      rw [hlen]
      calc s * num_imgs + num_imgs = (s + 1) * num_imgs := by ring
      _ ≤ num_shards * num_imgs :=
          Nat.mul_le_mul_right _ (Nat.succ_le_of_lt hsn)
    rw [shardSlice, List.length_take, List.length_drop]
    omega
  have hnodup : (clientIndices idxs num_imgs d).Nodup := by
    rw [clientIndices, List.nodup_flatten]
    constructor
    · intro l hl
      obtain ⟨s, hs, rfl⟩ := List.mem_map.mp hl
      exact List.Nodup.sublist
        ((List.take_sublist _ _).trans (List.drop_sublist _ _)) hnd
    · refine List.Pairwise.map _ ?_ hdnd
      intro a b hab
      exact shardSlice_disjoint hnd num_imgs hab
  have hlen2 : (clientIndices idxs num_imgs d).length = spc * num_imgs := by
    rw [clientIndices, List.length_flatten, List.map_map]
    have hconst : List.map (List.length ∘ fun s => shardSlice idxs num_imgs s) d =
        List.map (fun _ => num_imgs) d :=
      List.map_congr_left (fun s hs => hslice_len s hs)
    rw [hconst, List.map_const', List.sum_replicate, smul_eq_mul, hdlen]
  rw [List.toFinset_card_of_nodup hnodup, hlen2]

/-- Claim C4, witness: in the two-shard, one-image instance, client 0's
assigned index set has exactly `1 * 1` element. -/
theorem C4_partition_size_witness :
    (([0, 1] : List ℕ).Perm (List.range (2 * 1)) ∧
        validDraws 1 [[0], [1]] (List.range 2) = true ∧
        ([0] : List ℕ) ∈ ([[0], [1]] : List (List ℕ))) ∧
      (clientIndices [0, 1] 1 [0]).toFinset.card = 1 * 1 :=
  ⟨⟨by decide, by decide, by decide⟩,
    C4_partition_size 2 1 1 [0, 1] [[0], [1]] (by decide) (by decide)
      [0] (by decide)⟩

/-- Claim C6 (the code diverges from it): `np.random.shuffle(idxs)` in
`sample_noniid` (utils.py) permutes the *entire* index array, not each
shard's block separately.  With two shards of one image each, the sorted
index array `[0, 1]` can be shuffled into `[1, 0]` (a possible outcome of
the uniform global shuffle), and the index set occupying shard 0's
positions changes from `{0}` to `{1}`: shard boundaries are not preserved,
which in turn destroys the label grouping the function's documented
non-IID sampling relies on. -/
theorem C6_shuffle_breaks_shards :
    ([1, 0] : List ℕ).Perm [0, 1] ∧
      (shardSlice [1, 0] 1 0).toFinset ≠ (shardSlice [0, 1] 1 0).toFinset := by
  exact ⟨by decide, by decide⟩

/-- The per-round sample size of the orchestrator (federated.py):
`max(1, int(NUM_CLIENTS * CLIENT_FRACTION))`.  The float product is
modelled by exact rational arithmetic; Python's truncating `int(...)`
agrees with `Int.toNat ∘ Int.floor` under the outer `max 1` for every
fraction (they can differ only on negative products, where both sides of
the `max` collapse to `1`). -/
def numToSample (num_clients : ℕ) (client_fraction : ℚ) : ℕ :=
  max 1 (Int.toNat ⌊(num_clients : ℚ) * client_fraction⌋)

/-- A possible outcome of `random.sample(range(num_clients), k)` in the
round loop of federated.py: `k` distinct client ids drawn without
replacement from `0 .. num_clients - 1`. -/
def isSampleOutcome (num_clients k : ℕ) (s : List ℕ) : Prop :=
  s.length = k ∧ s.Nodup ∧ ∀ x ∈ s, x < num_clients

instance (num_clients k : ℕ) (s : List ℕ) :
    Decidable (isSampleOutcome num_clients k s) :=
  decidable_of_iff (s.length = k ∧ s.Nodup ∧ ∀ x ∈ s, x < num_clients) Iff.rfl

/-- Model of `sampled_clients.sort()` in federated.py: sort ascending. -/
def sortClients (s : List ℕ) : List ℕ :=
  List.insertionSort (fun a b => a ≤ b) s

/-- Claim C9: whatever `random.sample(range(num_clients), k)` returns for
`k = max(1, floor(num_clients * client_fraction))` — `k` distinct ids
below `num_clients` — the recorded list is that draw sorted ascending:
same ids, exactly `k` of them, no repetition, in ascending order. -/
theorem C9_round_sampling (num_clients : ℕ) (client_fraction : ℚ) (s : List ℕ)
    (hs : isSampleOutcome num_clients (numToSample num_clients client_fraction) s) :
    (sortClients s).Perm s ∧
      (sortClients s).length = numToSample num_clients client_fraction ∧
      (sortClients s).Nodup ∧ (∀ x ∈ sortClients s, x < num_clients) ∧
      (sortClients s).Sorted (fun a b => a ≤ b) := by
  obtain ⟨hlen, hnd, hmem⟩ := hs
  have hperm : (sortClients s).Perm s := List.perm_insertionSort _ s
  refine ⟨hperm, ?_, ?_, ?_, ?_⟩
  · rw [hperm.length_eq, hlen]
  · exact hperm.nodup_iff.mpr hnd
  · intro x hx
    exact hmem x (hperm.mem_iff.mp hx)
  · exact List.sorted_insertionSort _ s

/-- Claim C9, witness: with `num_clients = 4` and `client_fraction = 1/2`
exactly `2` clients are sampled; for the concrete draw `[2, 0]` the
recorded list is its ascending sort. -/
theorem C9_round_sampling_witness :
    (numToSample 4 (1 / 2) = 2 ∧ isSampleOutcome 4 (numToSample 4 (1 / 2)) [2, 0]) ∧
      ((sortClients [2, 0]).Perm [2, 0] ∧
        (sortClients [2, 0]).length = numToSample 4 (1 / 2) ∧
        (sortClients [2, 0]).Nodup ∧ (∀ x ∈ sortClients [2, 0], x < 4) ∧
        (sortClients [2, 0]).Sorted (fun a b => a ≤ b)) := by
  have hk : numToSample 4 (1 / 2) = 2 := by
    norm_num [numToSample]
    rfl
  have hout : isSampleOutcome 4 (numToSample 4 (1 / 2)) [2, 0] := by
    rw [hk]; decide
  exact ⟨⟨hk, hout⟩, C9_round_sampling 4 (1 / 2) [2, 0] hout⟩

end FL
